import Mathlib

/-!
Verification of the label-stabilization core of `src/app/labelling_engine.py`
(Room-Number-Recognition).

The development shallowly embeds the decision logic of the repository:

* `SVHNModel.predict` / `SVHNModel.make_label` (lines 48-96): converting the
  detector's boxes into a label string.  The neural-network inference itself is
  opaque; its post-processing (sorting by `x1`, the `len(boxes) <= 2` guard and
  the label assembly) is embedded faithfully.  Box coordinates only matter
  through their ordering, so they are carried as integers.
* `LabellingEngine.get_most_frequent_label` (lines 178-193): the FIFO label
  history (`output_queue`) plus the majority vote
  `Counter(q).most_common(1)[0][0]`.  A Python `Counter` built from a list is a
  dict whose keys appear in first-occurrence order with their multiplicities,
  and `most_common(1)` takes the maximum by count, the first maximal entry
  winning ties; `bump`/`counter`/`pickMax` below reproduce exactly this.
  Taking `[0]` of `most_common(1)` on an empty history would raise
  `IndexError`; this is modelled by `Option`, with `none` standing for the
  raised exception.
* `LabellingEngine.predict` (lines 148-176), `clear_most_frequent_label`
  (lines 195-200) and `close` (lines 202-206): the per-frame decision state
  machine over the engine state.  The two model objects are opaque, so
  `predict` takes the boolean result of `CheckerModel.predict` and the
  detection list of the SVHN model (with `none` for `prediction[0] is None`)
  as inputs.
-/

namespace RoomNumber

/-- A detection box as built in `SVHNModel.predict` (lines 60-70):
`{'x1':…, 'y1':…, 'x2':…, 'y2':…, 'conf':…, 'class': int(clas)}`.  The
real-valued coordinates and confidence enter the decision logic only through
the ordering on `x1`, so they are modelled as integers. -/
structure Box where
  x1 : Int
  y1 : Int
  x2 : Int
  y2 : Int
  conf : Int
  cls : Nat
deriving DecidableEq

/-- Mapping of one class id to its character, from `SVHNModel.make_label`
(lines 84-89): Python computes `str(box['class'])` and replaces `'10'` by
`'0'`; every other id keeps its decimal string. -/
def classStr (c : Nat) : String :=
  if c = 10 then "0" else toString c

/-- Embedding of `SVHNModel.make_label` (lines 78-96).  `chars` is the list of
mapped class characters; three characters are joined, four or more give the
first three, a separator `'-'` and the fourth (Python `chars[3]`, total here
via `getD` because the branch guarantees `4 ≤ chars.length`), anything shorter
gives the empty string. -/
def make_label (boxes : List Box) : String :=
  let chars := boxes.map (fun b => classStr b.cls)
  if chars.length = 3 then String.join chars
  else if 4 ≤ chars.length then
    String.join (chars.take 3) ++ "-" ++ chars.getD 3 ""
  else ""

/-- Embedding of `boxes = sorted(boxes, key=lambda x: x['x1'])` (line 72).
Python's `sorted` is a stable sort on the `x1` key; insertion sort with the
non-strict comparison is stable and sorted, and is structurally recursive so
that concrete runs reduce. -/
def sortByX1 (boxes : List Box) : List Box :=
  boxes.insertionSort (fun a b => a.x1 ≤ b.x1)

/-- Embedding of the post-inference part of `SVHNModel.predict`
(lines 72-76): sort the boxes by `x1`, report nothing usable for two or fewer
boxes, otherwise build the label. -/
def svhn_predict (boxes : List Box) : Option String :=
  if (sortByX1 boxes).length ≤ 2 then none
  else some (make_label (sortByX1 boxes))

/-- Result of `self.model2.predict(bigimg)` as seen by `LabellingEngine`
(lines 54-76): `none` models `prediction[0] is None` (zero detections),
otherwise the detection boxes are post-processed by `svhn_predict`. -/
def model2_predict : Option (List Box) → Option String
  | none => none
  | some boxes => svhn_predict boxes

/-- One step of building `Counter(q)`: account one label `x` into the
association list of (key, count) pairs.  A Python dict keeps the first
insertion position of each key, so an existing key is incremented in place and
a new key is appended at the tail. -/
def bump : List (String × Nat) → String → List (String × Nat)
  | [], x => [(x, 1)]
  | (y, n) :: rest, x =>
    if y = x then (y, n + 1) :: rest else (y, n) :: bump rest x

/-- Embedding of `Counter(q)` (line 184): fold the history left to right into
(key, count) pairs, keys in first-occurrence order. -/
def counter (q : List String) : List (String × Nat) :=
  q.foldl bump []

/-- Embedding of `max(items, key=itemgetter(1))`, which is what
`Counter.most_common(1)` computes via `heapq.nlargest(1, …)`: keep the current
best and replace it only on a strictly larger count, so the first maximal
entry wins ties. -/
def pickMax : (String × Nat) → List (String × Nat) → String × Nat
  | best, [] => best
  | best, e :: rest =>
    if best.2 < e.2 then pickMax e rest else pickMax best rest

/-- Embedding of `lambda q: Counter(q).most_common(1)[0][0]` (line 184).
On an empty history `most_common(1)` is `[]` and the `[0]` raises
`IndexError`, modelled as `none`. -/
def mostCommon1 (q : List String) : Option String :=
  match counter q with
  | [] => none
  | p :: rest => some (pickMax p rest).1

/-- State of a `LabellingEngine` (lines 104-138): the label history
`output_queue`, its capacity, the cached stabilized label and the
debug-image-saving flag with its frame counter `idx`.  The model objects,
logger and filesystem paths carry no decision state and are omitted. -/
structure Engine where
  output_queue : List String
  output_queue_cap : Nat
  most_frequent_label : String
  flag_for_save_img : Bool
  idx : Nat
deriving DecidableEq

/-- Engine state produced by `LabellingEngine.__init__` (lines 114-122):
empty history, empty cached label, `idx = 0`. -/
def initEngine (cap : Nat) (flag : Bool) : Engine :=
  { output_queue := []
    output_queue_cap := cap
    most_frequent_label := ""
    flag_for_save_img := flag
    idx := 0 }

/-- The debug-image block of `predict` (lines 161-166): pure file I/O except
for the `self.idx += 1` counter update, which only happens when the flag is
set. -/
def saveImgStep (e : Engine) : Engine :=
  if e.flag_for_save_img then { e with idx := e.idx + 1 } else e

/-- Embedding of `LabellingEngine.get_most_frequent_label` (lines 178-193).
With `now = none` the history is only read: an empty history returns `''`,
otherwise the majority is computed.  With `now = some l` the label is appended
at the tail and, when the length exceeds the capacity, the head is evicted
(`self.output_queue = self.output_queue[1:]`); the majority of the resulting
history is returned together with the updated state. -/
def get_most_frequent_label : Engine → Option String → Option String × Engine
  | e, none =>
    if e.output_queue.length = 0 then (some "", e)
    else (mostCommon1 e.output_queue, e)
  | e, some l =>
    let q2 := if e.output_queue_cap < (e.output_queue ++ [l]).length
              then (e.output_queue ++ [l]).drop 1
              else e.output_queue ++ [l]
    (mostCommon1 q2, { e with output_queue := q2 })

/-- The pure history update performed by `get_most_frequent_label(now)`
(lines 190-192): append at the tail, then evict one element from the head when
the length exceeds the capacity. -/
def stepQueue (cap : Nat) (q : List String) (l : String) : List String :=
  if cap < (q ++ [l]).length then (q ++ [l]).drop 1 else q ++ [l]

/-- Embedding of `LabellingEngine.predict` (lines 148-176).  Inputs are the
boolean verdict of `CheckerModel.predict` and the SVHN detection result; the
output is the triple `(raw, most_frequent_label, success)` together with the
successor state.  `none` models the only way the body can raise: taking the
majority of an empty history inside `get_most_frequent_label`. -/
def predict (e : Engine) (is_noise : Bool) (det : Option (List Box)) :
    Option ((String × String × Bool) × Engine) :=
  let e1 := saveImgStep e
  if is_noise then some (("Noise", e1.most_frequent_label, false), e1)
  else
    match model2_predict det with
    | none => some (("NaN", e1.most_frequent_label, false), e1)
    | some now =>
      let res := get_most_frequent_label e1 (some now)
      match res.1 with
      | none => none
      | some m => some ((now, m, true), { res.2 with most_frequent_label := m })

/-- Embedding of `LabellingEngine.clear_most_frequent_label`
(lines 195-200): reset the cached label and empty the history. -/
def clear_most_frequent_label (e : Engine) : Engine :=
  { e with most_frequent_label := "", output_queue := [] }

/-- Embedding of `LabellingEngine.close` (lines 202-206): a no-op. -/
def closeEngine (e : Engine) : Engine := e

/-- Record a whole sequence of labels through
`get_most_frequent_label(now)`, keeping only the state.  This is the
trajectory of the label history under repeated LABELLED frames. -/
def recordAll (e : Engine) (ls : List String) : Engine :=
  ls.foldl (fun a l => (get_most_frequent_label a (some l)).2) e

/-- One public operation of the engine, as enumerated by the interface
(`predict` in any decision state, `clear_most_frequent_label`, `close`).
`predict` steps require the call to return normally. -/
inductive Step : Engine → Engine → Prop where
  | predictStep (e : Engine) (b : Bool) (det : Option (List Box))
      (out : String × String × Bool) (e' : Engine)
      (h : predict e b det = some (out, e')) : Step e e'
  | clearStep (e : Engine) : Step e (clear_most_frequent_label e)
  | closeStep (e : Engine) : Step e (closeEngine e)

/-- Keys of a list in first-occurrence order: the order in which a Python
dict built by a left-to-right scan stores its keys. -/
def firstKeys : List String → List String
  | [] => []
  | x :: xs => x :: (firstKeys xs).filter (fun y => y ≠ x)

/-- Strengthened engine invariant used for the reachability proof: the cached
label is the current majority, and only non-empty labels are ever stored. -/
def StrongInv (e : Engine) : Prop :=
  e.most_frequent_label = (mostCommon1 e.output_queue).getD "" ∧
  ∀ l ∈ e.output_queue, l ≠ ""

/-- The cached stabilized label agrees with the history: it is the majority
vote over the current history, and it is empty exactly when the history is
empty. -/
def EngineInv (e : Engine) : Prop :=
  e.most_frequent_label = (mostCommon1 e.output_queue).getD "" ∧
  (e.most_frequent_label = "" ↔ e.output_queue = [])

/-! Facts about `firstKeys`: membership, freedom from duplicates, compatibility
with appending one element, and the first-occurrence ordering of its keys. -/

lemma mem_firstKeys {v : String} : ∀ {q : List String}, v ∈ firstKeys q ↔ v ∈ q
  | [] => Iff.rfl
  | x :: xs => by
    by_cases hvx : v = x
    · subst hvx; simp [firstKeys]
    · simp [firstKeys, hvx, List.mem_filter, mem_firstKeys (q := xs)]

lemma firstKeys_nodup (q : List String) : (firstKeys q).Nodup := by
  induction q with
  | nil => simp [firstKeys]
  | cons x xs ih =>
    rw [firstKeys, List.nodup_cons]
    refine ⟨fun hx => ?_, List.Nodup.filter _ ih⟩
    have := (List.mem_filter.mp hx).2
    simp at this

lemma firstKeys_append_singleton (q : List String) (x : String) :
    firstKeys (q ++ [x]) = if x ∈ q then firstKeys q else firstKeys q ++ [x] := by
  induction q with
  | nil => simp [firstKeys]
  | cons a q ih =>
    rw [List.cons_append, firstKeys, ih]
    by_cases hxq : x ∈ q
    · rw [if_pos hxq, if_pos (List.mem_cons_of_mem a hxq), firstKeys]
    · rw [if_neg hxq, List.filter_append]
      by_cases hxa : x = a
      · subst hxa
        rw [if_pos (List.mem_cons_self x q), firstKeys]
        simp
      · have hnm : x ∉ a :: q := by simp [hxa, hxq]
        rw [if_neg hnm, firstKeys, List.cons_append]
        simp [hxa]

lemma firstKeys_pairwise (q : List String) :
    List.Pairwise (fun a b => q.indexOf a < q.indexOf b) (firstKeys q) := by
  induction q with
  | nil => simp [firstKeys]
  | cons x xs ih =>
    rw [firstKeys]
    refine List.Pairwise.cons ?_ ?_
    · intro b hb
      have hbx : b ≠ x := by
        have := (List.mem_filter.mp hb).2
        simpa using this
      rw [List.indexOf_cons_self, List.indexOf_cons_ne _ (Ne.symm hbx)]
      exact Nat.succ_pos _
    · have hf : List.Pairwise (fun a b => xs.indexOf a < xs.indexOf b)
          ((firstKeys xs).filter (fun y => y ≠ x)) := List.Pairwise.filter _ ih
      refine hf.imp_of_mem ?_
      intro a b ha hb hab
      have hax : a ≠ x := by simpa using (List.mem_filter.mp ha).2
      have hbx : b ≠ x := by simpa using (List.mem_filter.mp hb).2
      rw [List.indexOf_cons_ne _ (Ne.symm hax), List.indexOf_cons_ne _ (Ne.symm hbx)]
      exact Nat.succ_lt_succ hab

/-! Behaviour of `bump` on an association list of distinct keys. -/

lemma bump_map_of_not_mem (ks : List String) (f : String → Nat) (x : String)
    (hx : x ∉ ks) :
    bump (ks.map (fun v => (v, f v))) x = ks.map (fun v => (v, f v)) ++ [(x, 1)] := by
  induction ks with
  | nil => rfl
  | cons k ks ih =>
    have hkx : k ≠ x := by rintro rfl; exact hx (List.mem_cons_self _ _)
    have hx' : x ∉ ks := fun h => hx (List.mem_cons_of_mem _ h)
    simp only [List.map_cons, bump, if_neg hkx, ih hx', List.cons_append]

lemma bump_map_of_mem (ks : List String) (f : String → Nat) (x : String)
    (hnd : ks.Nodup) (hx : x ∈ ks) :
    bump (ks.map (fun v => (v, f v))) x
      = ks.map (fun v => (v, if v = x then f v + 1 else f v)) := by
  induction ks with
  | nil => cases hx
  | cons k ks ih =>
    rcases List.nodup_cons.mp hnd with ⟨hknk, hnd'⟩
    by_cases hkx : k = x
    · subst hkx
      have hmap : ks.map (fun v => (v, if v = k then f v + 1 else f v))
          = ks.map (fun v => (v, f v)) := by
        refine List.map_congr_left ?_
        intro v hv
        have hvk : v ≠ k := by rintro rfl; exact hknk hv
        simp [hvk]
      simp [bump, hmap]
    · have hx' : x ∈ ks := by
        rcases List.mem_cons.mp hx with h | h
        · exact absurd h.symm hkx
        · exact h
      simp only [List.map_cons, bump, if_neg hkx, ih hnd' hx', if_neg hkx]

/-- The Python `Counter` of a history: keys in first-occurrence order, each
paired with its number of occurrences. -/
lemma counter_eq (q : List String) :
    counter q = (firstKeys q).map (fun v => (v, q.count v)) := by
  induction q using List.reverseRecOn with
  | nil => rfl
  | append_singleton q x ih =>
    have hstep : counter (q ++ [x]) = bump (counter q) x := by
      simp [counter, List.foldl_append]
    rw [hstep, ih, firstKeys_append_singleton]
    by_cases hx : x ∈ q
    · rw [if_pos hx,
        bump_map_of_mem _ _ _ (firstKeys_nodup q) (mem_firstKeys.mpr hx)]
      refine List.map_congr_left ?_
      intro v hv
      by_cases hvx : v = x
      · subst hvx
        simp [List.count_append]
      · simp [hvx, List.count_append, List.count_singleton,
          Ne.symm hvx]
    · rw [if_neg hx,
        bump_map_of_not_mem _ _ _ (fun h => hx (mem_firstKeys.mp h)),
        List.map_append]
      congr 1
      · refine List.map_congr_left ?_
        intro v hv
        have hvx : v ≠ x := by rintro rfl; exact hx (mem_firstKeys.mp hv)
        simp [List.count_append, List.count_singleton, Ne.symm hvx]
      · simp [List.count_append, List.count_eq_zero.mpr hx]

/-- Full specification of the first-maximum scan `pickMax`: the result is one
of the entries, its count bounds every entry, and every entry strictly before
it has a strictly smaller count. -/
lemma pickMax_spec : ∀ (l : List (String × Nat)) (best : String × Nat),
    pickMax best l ∈ best :: l ∧
    (∀ e ∈ best :: l, e.2 ≤ (pickMax best l).2) ∧
    ∃ pre post, best :: l = pre ++ (pickMax best l) :: post ∧
      ∀ e ∈ pre, e.2 < (pickMax best l).2 := by
  intro l
  induction l with
  | nil =>
    intro best
    refine ⟨List.mem_cons_self _ _, ?_, [], [], rfl, by simp⟩
    intro e he
    rcases List.mem_cons.mp he with rfl | h
    · exact le_refl _
    · cases h
  | cons p rest ih =>
    intro best
    by_cases hlt : best.2 < p.2
    · have heq : pickMax best (p :: rest) = pickMax p rest := by
        simp [pickMax, hlt]
      obtain ⟨hmem, hbound, pre, post, hsplit, hpre⟩ := ih p
      rw [heq]
      refine ⟨List.mem_cons_of_mem _ hmem, ?_, best :: pre, post, ?_, ?_⟩
      · intro e he
        rcases List.mem_cons.mp he with rfl | h
        · exact le_of_lt (lt_of_lt_of_le hlt (hbound p (List.mem_cons_self _ _)))
        · exact hbound e h
      · rw [List.cons_append, ← hsplit]
      · intro e he
        rcases List.mem_cons.mp he with rfl | h
        · exact lt_of_lt_of_le hlt (hbound p (List.mem_cons_self _ _))
        · exact hpre e h
    · have hle : p.2 ≤ best.2 := le_of_not_lt hlt
      have heq : pickMax best (p :: rest) = pickMax best rest := by
        simp [pickMax, hlt]
      obtain ⟨hmem, hbound, pre, post, hsplit, hpre⟩ := ih best
      rw [heq]
      have hres : ∀ e ∈ best :: p :: rest, e.2 ≤ (pickMax best rest).2 := by
        intro e he
        rcases List.mem_cons.mp he with rfl | h
        · exact hbound e (List.mem_cons_self _ _)
        · rcases List.mem_cons.mp h with rfl | h'
          · exact le_trans hle (hbound best (List.mem_cons_self _ _))
          · exact hbound e (List.mem_cons_of_mem _ h')
      refine ⟨?_, hres, ?_⟩
      · rcases List.mem_cons.mp hmem with h | h
        · rw [h]; exact List.mem_cons_self _ _
        · exact List.mem_cons_of_mem _ (List.mem_cons_of_mem _ h)
      · cases pre with
        | nil =>
          have hbest : best = pickMax best rest := by
            simpa using congrArg (fun l => l.head?) hsplit
          exact ⟨[], p :: rest, by rw [← hbest]; rfl, by simp⟩
        | cons b pre' =>
          have hb : best = b ∧ rest = pre' ++ pickMax best rest :: post := by
            constructor
            · simpa using congrArg (fun l => l.head?) hsplit
            · simpa using congrArg (fun l => l.tail) hsplit
          obtain ⟨hb1, hb2⟩ := hb
          subst hb1
          have hbestlt : best.2 < (pickMax best rest).2 :=
            hpre best (List.mem_cons_self _ _)
          refine ⟨best :: p :: pre', post, ?_, ?_⟩
          · rw [List.cons_append, List.cons_append, ← hb2]
          · intro e he
            rcases List.mem_cons.mp he with rfl | h
            · exact hbestlt
            · rcases List.mem_cons.mp h with rfl | h'
              · exact lt_of_le_of_lt hle hbestlt
              · exact hpre e (List.mem_cons_of_mem _ h')

lemma mostCommon1_nil : mostCommon1 [] = none := rfl

/-- Characterization of the majority vote: on a non-empty history it returns
an element of the history whose count bounds every count, and on a count tie
the winner is the value whose first occurrence (`indexOf`) is earliest. -/
lemma mostCommon1_spec (q : List String) (hq : q ≠ []) :
    ∃ m, mostCommon1 q = some m ∧ m ∈ q ∧
      (∀ v ∈ q, q.count v ≤ q.count m) ∧
      (∀ v ∈ q, q.count v = q.count m → q.indexOf m ≤ q.indexOf v) := by
  obtain ⟨p, rest, hpr⟩ : ∃ p rest, counter q = p :: rest := by
    rcases hcq : counter q with _ | ⟨p, rest⟩
    · exfalso
      obtain ⟨a, ha⟩ := List.exists_mem_of_ne_nil q hq
      have hfk : a ∈ firstKeys q := mem_firstKeys.mpr ha
      rw [counter_eq] at hcq
      rw [List.map_eq_nil_iff.mp hcq] at hfk
      cases hfk
    · exact ⟨p, rest, rfl⟩
  obtain ⟨hmem, hbound, pre, post, hsplit, hpre⟩ := pickMax_spec rest p
  have hm1 : mostCommon1 q = some (pickMax p rest).1 := by
    unfold mostCommon1
    rw [hpr]
  have hpmc : pickMax p rest ∈ counter q := by rw [hpr]; exact hmem
  rw [counter_eq] at hpmc
  obtain ⟨v0, hv0k, hv0e⟩ := List.mem_map.mp hpmc
  have hfst : (pickMax p rest).1 = v0 := by rw [← hv0e]
  have hsnd : (pickMax p rest).2 = q.count v0 := by rw [← hv0e]
  refine ⟨(pickMax p rest).1, hm1, ?_, ?_, ?_⟩
  · rw [hfst]; exact mem_firstKeys.mp hv0k
  · intro v hv
    have hvc : (v, q.count v) ∈ counter q := by
      rw [counter_eq]
      exact List.mem_map_of_mem _ (mem_firstKeys.mpr hv)
    rw [hpr] at hvc
    rw [← hfst] at hsnd
    rw [← hsnd]
    exact hbound _ hvc
  · intro v hv hcnt
    by_cases hveq : v = (pickMax p rest).1
    · rw [hveq]
    · have hvc : (v, q.count v) ∈ counter q := by
        rw [counter_eq]
        exact List.mem_map_of_mem _ (mem_firstKeys.mpr hv)
      rw [hpr, hsplit] at hvc
      rw [← hfst] at hsnd
      rcases List.mem_append.mp hvc with hin | hin
      · have hlt : q.count v < (pickMax p rest).2 := hpre _ hin
        rw [hsnd] at hlt
        exact absurd hcnt (ne_of_lt hlt)
      · rcases List.mem_cons.mp hin with heq | hin2
        · exact absurd (congrArg Prod.fst heq) hveq
        · have h1 : firstKeys q = (counter q).map Prod.fst := by
            rw [counter_eq, List.map_map]
            exact (List.map_id _).symm
          rw [hpr, hsplit, List.map_append, List.map_cons] at h1
          have hpw := firstKeys_pairwise q
          rw [h1] at hpw
          have hv' : v ∈ post.map Prod.fst := by
            simpa using List.mem_map_of_mem Prod.fst hin2
          have hsub : [(pickMax p rest).1, v].Sublist
              (List.map Prod.fst pre ++ (pickMax p rest).1 :: List.map Prod.fst post) := by
            refine List.Sublist.trans ?_ (List.sublist_append_right _ _)
            exact (List.cons_sublist_cons).mpr (List.singleton_sublist.mpr hv')
          have hp2 := hpw.sublist hsub
          rcases List.pairwise_cons.mp hp2 with ⟨hrel, _⟩
          exact le_of_lt (hrel v (List.mem_cons_self _ _))

/-! The FIFO behaviour of the label history. -/

lemma get_mfl_record_snd (e : Engine) (l : String) :
    (get_most_frequent_label e (some l)).2
      = { e with output_queue := stepQueue e.output_queue_cap e.output_queue l } := rfl

lemma get_mfl_record_fst (e : Engine) (l : String) :
    (get_most_frequent_label e (some l)).1
      = mostCommon1 (stepQueue e.output_queue_cap e.output_queue l) := rfl

lemma recordAll_eq (ls : List String) : ∀ e : Engine,
    recordAll e ls
      = { e with output_queue := ls.foldl (stepQueue e.output_queue_cap) e.output_queue } := by
  induction ls with
  | nil => intro e; rfl
  | cons l ls ih =>
    intro e
    show recordAll ((get_most_frequent_label e (some l)).2) ls = _
    rw [get_mfl_record_snd, ih]
    rfl

/-- Action of the FIFO step on a whole input sequence: starting from a history
of length at most the capacity, the resulting history is the suffix of
`q ++ ls` consisting of its last `cap` elements. -/
lemma foldl_stepQueue (cap : Nat) : ∀ (ls : List String) (q : List String),
    q.length ≤ cap →
    ls.foldl (stepQueue cap) q = (q ++ ls).drop ((q ++ ls).length - cap) := by
  intro ls
  induction ls with
  | nil =>
    intro q hq
    rw [List.foldl_nil, List.append_nil, Nat.sub_eq_zero_of_le hq, List.drop_zero]
  | cons l ls ih =>
    intro q hq
    rw [List.foldl_cons]
    by_cases hc : cap < (q ++ [l]).length
    · have hn : q.length = cap := by
        rw [List.length_append] at hc
        simp at hc
        omega
      have hstep : stepQueue cap q l = (q ++ [l]).drop 1 := if_pos hc
      rw [hstep]
      have hlen1 : ((q ++ [l]).drop 1).length ≤ cap := by
        rw [List.length_drop, List.length_append]
        simp
        omega
      rw [ih _ hlen1]
      have hA : ((q ++ [l]) ++ ls).drop 1 = (q ++ [l]).drop 1 ++ ls := by
        rw [List.drop_append_eq_append_drop]
        have h0 : 1 - (q ++ [l]).length = 0 := by
          rw [List.length_append]; simp
        rw [h0, List.drop_zero]
      have hamtL : ((q ++ [l]).drop 1 ++ ls).length - cap = ls.length := by
        rw [List.length_append, List.length_drop, List.length_append]
        simp
        omega
      have hamtR : (q ++ l :: ls).length - cap = ls.length + 1 := by
        rw [List.length_append]
        simp
        omega
      rw [hamtL, ← hA, List.drop_drop, hamtR]
      congr 1
      · omega
      · simp
    · have hqc : q.length + 1 ≤ cap := by
        rw [List.length_append] at hc
        simp at hc
        omega
      have hstep : stepQueue cap q l = q ++ [l] := if_neg hc
      rw [hstep]
      have hlen1 : (q ++ [l]).length ≤ cap := by
        rw [List.length_append]
        simp
        omega
      rw [ih _ hlen1]
      congr 1
      · simp only [List.length_append, List.length_cons, List.length_singleton,
          List.length_nil]
        omega
      · simp

/-! Non-emptiness of produced labels, and basic facts about the sort. -/

lemma toDigitsCore_length_mono (b : Nat) : ∀ (f n : Nat) (ds : List Char),
    ds.length ≤ (Nat.toDigitsCore b f n ds).length := by
  intro f
  induction f with
  | zero => intro n ds; simp only [Nat.toDigitsCore]; exact le_refl _
  | succ f ih =>
    intro n ds
    simp only [Nat.toDigitsCore]
    by_cases hx : n / b = 0
    · simp only [hx, if_true]
      simp
    · simp only [hx, if_false]
      exact le_trans (by simp) (ih (n / b) (Nat.digitChar (n % b) :: ds))

lemma toDigits_length_pos (b n : Nat) : 0 < (Nat.toDigits b n).length := by
  unfold Nat.toDigits
  simp only [Nat.toDigitsCore]
  by_cases hx : n / b = 0
  · simp [hx]
  · simp only [hx, if_false]
    exact lt_of_lt_of_le (by simp)
      (toDigitsCore_length_mono b n (n / b) [Nat.digitChar (n % b)])

lemma classStr_length_pos (c : Nat) : 0 < (classStr c).length := by
  unfold classStr
  split
  · decide
  · show 0 < (Nat.repr c).length
    unfold Nat.repr
    have h : (Nat.toDigits 10 c).asString.length = (Nat.toDigits 10 c).length := by
      simp [List.asString, String.length]
    rw [h]
    exact toDigits_length_pos 10 c

/-- A label built by `make_label` from at least three boxes is never the empty
string. -/
lemma make_label_ne_empty (boxes : List Box) (h : 3 ≤ boxes.length) :
    make_label boxes ≠ "" := by
  intro hcon
  have hpos : 0 < (make_label boxes).length := by
    unfold make_label
    by_cases h3 : (boxes.map fun b => classStr b.cls).length = 3
    · rw [if_pos h3]
      obtain ⟨a, b, c, habc⟩ := List.length_eq_three.mp h3
      have ha : a ∈ boxes.map fun b => classStr b.cls := by rw [habc]; simp
      obtain ⟨xa, _, hxa⟩ := List.mem_map.mp ha
      rw [habc]
      have hj : String.join [a, b, c] = a ++ b ++ c := rfl
      rw [hj, String.length_append, String.length_append, ← hxa]
      have := classStr_length_pos xa.cls
      omega
    · have h4 : 4 ≤ (boxes.map fun b => classStr b.cls).length := by
        rw [List.length_map]
        rw [List.length_map] at h3
        omega
      rw [if_neg h3, if_pos h4, String.length_append, String.length_append]
      have hdash : ("-" : String).length = 1 := rfl
      omega
  rw [hcon] at hpos
  simp at hpos

lemma sortByX1_length (boxes : List Box) :
    (sortByX1 boxes).length = boxes.length :=
  (List.perm_insertionSort _ boxes).length_eq

lemma sortByX1_perm (boxes : List Box) : (sortByX1 boxes).Perm boxes :=
  List.perm_insertionSort _ boxes

lemma sortByX1_sorted (boxes : List Box) :
    (sortByX1 boxes).Pairwise (fun a b => a.x1 ≤ b.x1) := by
  haveI : IsTotal Box (fun a b => a.x1 ≤ b.x1) := ⟨fun a b => le_total a.x1 b.x1⟩
  haveI : IsTrans Box (fun a b => a.x1 ≤ b.x1) :=
    ⟨fun a b c hab hbc => le_trans hab hbc⟩
  exact List.sorted_insertionSort _ boxes

/-- A label reported by the SVHN post-processing is never the empty string:
the `len(boxes) <= 2` guard means `make_label` only ever runs on at least
three boxes. -/
lemma svhn_predict_ne_empty (boxes : List Box) (l : String)
    (h : svhn_predict boxes = some l) : l ≠ "" := by
  unfold svhn_predict at h
  by_cases hlen : (sortByX1 boxes).length ≤ 2
  · rw [if_pos hlen] at h
    cases h
  · rw [if_neg hlen] at h
    have hl : l = make_label (sortByX1 boxes) := (Option.some.injEq _ _ ▸ h).symm
    rw [hl]
    exact make_label_ne_empty _ (by omega)

lemma model2_predict_ne_empty (det : Option (List Box)) (l : String)
    (h : model2_predict det = some l) : l ≠ "" := by
  cases det with
  | none => cases h
  | some boxes => exact svhn_predict_ne_empty boxes l h

/-! Unfolding lemmas for the three decision states of `predict`, and the
engine invariant. -/

lemma saveImgStep_queue (e : Engine) :
    (saveImgStep e).output_queue = e.output_queue := by
  unfold saveImgStep; split <;> rfl

lemma saveImgStep_mfl (e : Engine) :
    (saveImgStep e).most_frequent_label = e.most_frequent_label := by
  unfold saveImgStep; split <;> rfl

lemma saveImgStep_cap (e : Engine) :
    (saveImgStep e).output_queue_cap = e.output_queue_cap := by
  unfold saveImgStep; split <;> rfl

lemma predict_noise (e : Engine) (det : Option (List Box)) :
    predict e true det
      = some (("Noise", e.most_frequent_label, false), saveImgStep e) := by
  simp [predict, saveImgStep_mfl]

lemma predict_nan (e : Engine) (det : Option (List Box))
    (h : model2_predict det = none) :
    predict e false det
      = some (("NaN", e.most_frequent_label, false), saveImgStep e) := by
  simp [predict, h, saveImgStep_mfl]

lemma predict_labelled (e : Engine) (det : Option (List Box)) (now m : String)
    (hdet : model2_predict det = some now)
    (hm : mostCommon1 (stepQueue e.output_queue_cap e.output_queue now) = some m) :
    predict e false det
      = some ((now, m, true),
          { saveImgStep e with
              output_queue := stepQueue e.output_queue_cap e.output_queue now,
              most_frequent_label := m }) := by
  simp only [predict, hdet]
  rw [get_mfl_record_fst, get_mfl_record_snd, saveImgStep_cap, saveImgStep_queue, hm]
  simp

lemma predict_crash (e : Engine) (det : Option (List Box)) (now : String)
    (hdet : model2_predict det = some now)
    (hm : mostCommon1 (stepQueue e.output_queue_cap e.output_queue now) = none) :
    predict e false det = none := by
  simp only [predict, hdet]
  rw [get_mfl_record_fst, saveImgStep_cap, saveImgStep_queue, hm]
  simp

lemma mem_stepQueue {cap : Nat} {q : List String} {l x : String}
    (h : x ∈ stepQueue cap q l) : x ∈ q ++ [l] := by
  unfold stepQueue at h
  by_cases hc : cap < (q ++ [l]).length
  · rw [if_pos hc] at h
    exact List.mem_of_mem_drop h
  · rw [if_neg hc] at h
    exact h

lemma strongInv_init (cap : Nat) (flag : Bool) : StrongInv (initEngine cap flag) := by
  constructor
  · rfl
  · intro l hl
    cases hl

lemma strongInv_clear (e : Engine) : StrongInv (clear_most_frequent_label e) := by
  constructor
  · rfl
  · intro l hl
    cases hl

lemma strongInv_step {e e' : Engine} (hinv : StrongInv e) (hst : Step e e') :
    StrongInv e' := by
  cases hst with
  | clearStep => exact strongInv_clear e
  | closeStep => exact hinv
  | predictStep b det out e2 h =>
    have hsave : StrongInv (saveImgStep e) := by
      constructor
      · rw [saveImgStep_mfl, saveImgStep_queue]; exact hinv.1
      · rw [saveImgStep_queue]; exact hinv.2
    cases b with
    | true =>
      rw [predict_noise] at h
      injection h with h1
      injection h1 with hout he2
      rw [← he2]
      exact hsave
    | false =>
      cases hdet : model2_predict det with
      | none =>
        rw [predict_nan e det hdet] at h
        injection h with h1
        injection h1 with hout he2
        rw [← he2]
        exact hsave
      | some now =>
        cases hm : mostCommon1 (stepQueue e.output_queue_cap e.output_queue now) with
        | none =>
          rw [predict_crash e det now hdet hm] at h
          cases h
        | some m =>
          rw [predict_labelled e det now m hdet hm] at h
          injection h with h1
          injection h1 with hout he2
          rw [← he2]
          constructor
          · show m = (mostCommon1 (stepQueue e.output_queue_cap e.output_queue now)).getD ""
            rw [hm]
            rfl
          · intro l hl
            have hl' : l ∈ stepQueue e.output_queue_cap e.output_queue now := hl
            rcases List.mem_append.mp (mem_stepQueue hl') with h1 | h1
            · exact hinv.2 l h1
            · have hln : l = now := by simpa using h1
              rw [hln]
              exact model2_predict_ne_empty det now hdet

lemma engineInv_of_strongInv {e : Engine} (h : StrongInv e) : EngineInv e := by
  obtain ⟨h1, h2⟩ := h
  refine ⟨h1, ?_, ?_⟩
  · intro hm
    by_contra hq
    obtain ⟨m, hmm, hmem, _, _⟩ := mostCommon1_spec e.output_queue hq
    rw [hmm] at h1
    exact h2 m hmem ((show m = e.most_frequent_label from h1.symm).trans hm)
  · intro hq
    rw [hq] at h1
    rw [h1]
    rfl

lemma make_label_take4 (s : List Box) (h : 4 ≤ s.length) :
    make_label s = make_label (s.take 4) := by
  simp only [make_label]
  have hlen4 : ((s.take 4).map fun b => classStr b.cls).length = 4 := by
    rw [List.length_map, List.length_take]
    omega
  have hlen : (s.map fun b => classStr b.cls).length = s.length := List.length_map _ _
  rw [if_neg (by omega), if_pos (by omega), if_neg (by omega), if_pos (by omega)]
  have htake : ((s.take 4).map fun b => classStr b.cls).take 3
      = (s.map fun b => classStr b.cls).take 3 := by
    rw [List.map_take, List.take_take]
    norm_num
  have hget : ((s.take 4).map fun b => classStr b.cls).getD 3 ""
      = (s.map fun b => classStr b.cls).getD 3 "" := by
    rw [List.getD_eq_getElem?_getD, List.getD_eq_getElem?_getD, List.getElem?_map,
      List.getElem?_map, List.getElem?_take]
    simp
  rw [htake, hget]

/-! The ten claims. -/

/-- C1 (counterexample to the claim as stated): with capacity C = 1, after
C + 1 = 2 insertions of the label "a" the history is ["a"], so the first
inserted label IS still present in the history — the unconditional
"after C+1 insertions the first inserted label is no longer present" fails
when the first label recurs among the later insertions. -/
theorem c1_first_label_counterexample :
    (recordAll (initEngine 1 false) ["a", "a"]).output_queue = ["a"] ∧
    "a" ∈ (recordAll (initEngine 1 false) ["a", "a"]).output_queue := by
  constructor
  · rfl
  · show "a" ∈ (["a"] : List String)
    exact List.mem_singleton_self "a"

/-- C1 (amended): the label history is a FIFO sliding window of fixed
capacity: for every recorded sequence the length never exceeds the capacity,
the history is exactly the last `cap` recorded labels (append at tail, evict
at head), and after `cap + 1` insertions the first inserted label is gone
whenever it does not recur among the following `cap` insertions. -/
theorem c1_fifo_sliding_window (cap : Nat) (flag : Bool) (ls : List String) :
    (recordAll (initEngine cap flag) ls).output_queue.length ≤ cap ∧
    (recordAll (initEngine cap flag) ls).output_queue = ls.drop (ls.length - cap) ∧
    (∀ l rest, ls = l :: rest → rest.length = cap → l ∉ rest →
      l ∉ (recordAll (initEngine cap flag) ls).output_queue) := by
  have hfold := foldl_stepQueue cap ls [] (by simp)
  rw [List.nil_append] at hfold
  have hQ : (recordAll (initEngine cap flag) ls).output_queue
      = ls.foldl (stepQueue cap) [] := by
    rw [recordAll_eq]
    exact rfl
  have hq := hQ.trans hfold
  refine ⟨?_, hq, ?_⟩
  · rw [hq, List.length_drop]
    omega
  · intro l rest hls hlen hnot hmem
    rw [hq, hls, List.length_cons, hlen] at hmem
    have h1 : cap + 1 - cap = 1 := by omega
    rw [h1, List.drop_succ_cons, List.drop_zero] at hmem
    exact hnot hmem

/-- C1 witness: with capacity 1 and recorded labels ["a", "b"], the first
label "a" does not recur, and indeed it is no longer present. -/
theorem c1_fifo_sliding_window_witness :
    ("a" ∉ (["b"] : List String)) ∧
    "a" ∉ (recordAll (initEngine 1 false) ["a", "b"]).output_queue :=
  ⟨by decide,
   (c1_fifo_sliding_window 1 false ["a", "b"]).2.2 "a" ["b"] rfl rfl (by decide)⟩

/-- C2: on any fixed non-empty history the majority computation returns a
definite value (it is a function, hence deterministic): a member of the
history whose count bounds every other count — so a value with strictly
highest count, when one exists, is returned — and on a count tie the returned
value is the one whose first occurrence in the left-to-right scan is
earliest. -/
theorem c2_majority_vote (q : List String) (hq : q ≠ []) :
    ∃ m, mostCommon1 q = some m ∧ m ∈ q ∧
      (∀ v ∈ q, q.count v ≤ q.count m) ∧
      (∀ v ∈ q, q.count v = q.count m → q.indexOf m ≤ q.indexOf v) ∧
      (∀ v ∈ q, (∀ w ∈ q, w ≠ v → q.count w < q.count v) → m = v) := by
  obtain ⟨m, h1, h2, h3, h4⟩ := mostCommon1_spec q hq
  refine ⟨m, h1, h2, h3, h4, ?_⟩
  intro v hv hstrict
  by_contra hne
  exact absurd (h3 v hv) (not_le.mpr (hstrict m h2 hne))

/-- C2 witness: on the history ["a", "b", "b"] the majority exists and
satisfies the characterization (it is "b"). -/
theorem c2_majority_vote_witness :
    ((["a", "b", "b"] : List String) ≠ []) ∧
    (∃ m, mostCommon1 ["a", "b", "b"] = some m ∧ m ∈ (["a", "b", "b"] : List String) ∧
      (∀ v ∈ (["a", "b", "b"] : List String),
        List.count v ["a", "b", "b"] ≤ List.count m ["a", "b", "b"]) ∧
      (∀ v ∈ (["a", "b", "b"] : List String),
        List.count v ["a", "b", "b"] = List.count m ["a", "b", "b"] →
          List.indexOf m ["a", "b", "b"] ≤ List.indexOf v ["a", "b", "b"]) ∧
      (∀ v ∈ (["a", "b", "b"] : List String),
        (∀ w ∈ (["a", "b", "b"] : List String), w ≠ v →
          List.count w ["a", "b", "b"] < List.count v ["a", "b", "b"]) → m = v)) :=
  ⟨by decide, c2_majority_vote ["a", "b", "b"] (by decide)⟩

/-- C3: when the binary classifier reports noise, `predict` returns exactly
("Noise", previous stabilized label, false), and neither the history nor the
cached stabilized label changes (only the debug frame counter may move). -/
theorem c3_noise_frame (e : Engine) (det : Option (List Box)) :
    ∃ e', predict e true det = some (("Noise", e.most_frequent_label, false), e') ∧
      e'.output_queue = e.output_queue ∧
      e'.most_frequent_label = e.most_frequent_label ∧
      e'.output_queue_cap = e.output_queue_cap :=
  ⟨saveImgStep e, predict_noise e det, saveImgStep_queue e, saveImgStep_mfl e,
    saveImgStep_cap e⟩

/-- C4: when the classifier does not report noise but the detector yields
nothing usable (zero detections, or fewer than 3 detections), `predict`
returns exactly ("NaN", previous stabilized label, false) without touching
the history; the outcome is an ordinary return value, not an exception. -/
theorem c4_no_label (e : Engine) (det : Option (List Box))
    (h : det = none ∨ ∃ boxes, det = some boxes ∧ boxes.length < 3) :
    ∃ e', predict e false det = some (("NaN", e.most_frequent_label, false), e') ∧
      e'.output_queue = e.output_queue ∧
      e'.most_frequent_label = e.most_frequent_label := by
  have hdet : model2_predict det = none := by
    rcases h with rfl | ⟨boxes, rfl, hb⟩
    · rfl
    · show svhn_predict boxes = none
      unfold svhn_predict
      rw [if_pos (by rw [sortByX1_length]; omega)]
  exact ⟨saveImgStep e, predict_nan e det hdet, saveImgStep_queue e, saveImgStep_mfl e⟩

/-- C4 witness: two detection boxes are not enough, so the engine reports
("NaN", unchanged label, false). -/
theorem c4_no_label_witness :
    (∃ boxes, (some [(⟨5, 0, 6, 1, 1, 1⟩ : Box), ⟨7, 0, 8, 1, 1, 2⟩]
        : Option (List Box)) = some boxes ∧ boxes.length < 3) ∧
    (∃ e', predict (initEngine 3 false) false
        (some [(⟨5, 0, 6, 1, 1, 1⟩ : Box), ⟨7, 0, 8, 1, 1, 2⟩])
      = some (("NaN", (initEngine 3 false).most_frequent_label, false), e') ∧
      e'.output_queue = (initEngine 3 false).output_queue ∧
      e'.most_frequent_label = (initEngine 3 false).most_frequent_label) :=
  ⟨⟨[⟨5, 0, 6, 1, 1, 1⟩, ⟨7, 0, 8, 1, 1, 2⟩], rfl, by decide⟩,
   c4_no_label (initEngine 3 false) _
     (Or.inr ⟨[⟨5, 0, 6, 1, 1, 1⟩, ⟨7, 0, 8, 1, 1, 2⟩], rfl, by decide⟩)⟩

/-- C5: sequence-to-label conversion orders the boxes by their left-x
coordinate (the result is a permutation of the input sorted by `x1`); fewer
than 3 detections yield no label; exactly 3 yield the concatenation of the
mapped characters in left-x order; 4 or more yield the first three mapped
characters, a separator, and the fourth, ignoring every detection beyond the
fourth; class id 10 maps to '0' and every other id to its decimal string. -/
theorem c5_sequence_to_label (boxes : List Box) :
    (sortByX1 boxes).Perm boxes ∧
    (sortByX1 boxes).Pairwise (fun a b => a.x1 ≤ b.x1) ∧
    (boxes.length < 3 → svhn_predict boxes = none) ∧
    (boxes.length = 3 → svhn_predict boxes
        = some (String.join ((sortByX1 boxes).map (fun b => classStr b.cls)))) ∧
    (4 ≤ boxes.length →
      svhn_predict boxes
        = some (String.join (((sortByX1 boxes).take 3).map (fun b => classStr b.cls))
            ++ "-" ++ ((sortByX1 boxes).map (fun b => classStr b.cls)).getD 3 "") ∧
      make_label (sortByX1 boxes) = make_label ((sortByX1 boxes).take 4)) ∧
    classStr 10 = "0" ∧
    (∀ c : Nat, c ≠ 10 → classStr c = toString c) := by
  refine ⟨sortByX1_perm boxes, sortByX1_sorted boxes, ?_, ?_, ?_, rfl, ?_⟩
  · intro h
    unfold svhn_predict
    rw [if_pos (by rw [sortByX1_length]; omega)]
  · intro h
    unfold svhn_predict
    rw [if_neg (by rw [sortByX1_length]; omega)]
    simp only [make_label]
    rw [if_pos (by rw [List.length_map, sortByX1_length]; exact h)]
  · intro h
    constructor
    · unfold svhn_predict
      rw [if_neg (by rw [sortByX1_length]; omega)]
      simp only [make_label]
      rw [if_neg (by rw [List.length_map, sortByX1_length]; omega),
          if_pos (by rw [List.length_map, sortByX1_length]; omega)]
      rw [List.map_take]
    · exact make_label_take4 _ (by rw [sortByX1_length]; omega)
  · intro c hc
    unfold classStr
    rw [if_neg hc]

/-- C5 witness: two boxes give nothing; boxes at x = [10, 5, 20] with class
ids [3, 1, 2] give "132"; four boxes with class ids [7, 1, 9, 10] in left-x
order give "719-0"; class 7 maps to its decimal string. -/
theorem c5_sequence_to_label_witness :
    svhn_predict [(⟨5, 0, 6, 1, 1, 1⟩ : Box), ⟨7, 0, 8, 1, 1, 2⟩] = none ∧
    svhn_predict [(⟨10, 0, 11, 1, 1, 3⟩ : Box), ⟨5, 0, 6, 1, 1, 1⟩,
      ⟨20, 0, 21, 1, 1, 2⟩] = some "132" ∧
    svhn_predict [(⟨0, 0, 1, 1, 1, 7⟩ : Box), ⟨1, 0, 2, 1, 1, 1⟩,
      ⟨2, 0, 3, 1, 1, 9⟩, ⟨3, 0, 4, 1, 1, 10⟩] = some "719-0" ∧
    classStr 7 = "7" := by
  refine ⟨?_, ?_, ?_, ?_⟩
  · exact (c5_sequence_to_label _).2.2.1 (by decide)
  · have h := (c5_sequence_to_label [(⟨10, 0, 11, 1, 1, 3⟩ : Box), ⟨5, 0, 6, 1, 1, 1⟩,
      ⟨20, 0, 21, 1, 1, 2⟩]).2.2.2.1 (by decide)
    rw [h]
    decide
  · have h := ((c5_sequence_to_label [(⟨0, 0, 1, 1, 1, 7⟩ : Box), ⟨1, 0, 2, 1, 1, 1⟩,
      ⟨2, 0, 3, 1, 1, 9⟩, ⟨3, 0, 4, 1, 1, 10⟩]).2.2.2.2.1 (by decide)).1
    rw [h]
    decide
  · exact ((c5_sequence_to_label []).2.2.2.2.2.2 7 (by decide)).trans (by decide)

/-- C6: when the detector yields a raw label, `predict` records it into the
history (append, evict on overflow), caches the fresh majority over the
updated history, and returns exactly (raw label, fresh majority, true).  The
capacity is positive, as the configuration contract requires; with capacity 0
the recorded history would empty out and the majority lookup would raise. -/
theorem c6_labelled_records_and_returns (e : Engine) (det : Option (List Box))
    (now : String) (hdet : model2_predict det = some now)
    (hcap : 1 ≤ e.output_queue_cap) :
    ∃ m e', predict e false det = some ((now, m, true), e') ∧
      e'.most_frequent_label = m ∧
      e'.output_queue = stepQueue e.output_queue_cap e.output_queue now ∧
      mostCommon1 e'.output_queue = some m := by
  have hne : stepQueue e.output_queue_cap e.output_queue now ≠ [] := by
    unfold stepQueue
    by_cases hc : e.output_queue_cap < (e.output_queue ++ [now]).length
    · rw [if_pos hc]
      intro hnil
      have hlen := congrArg List.length hnil
      rw [List.length_drop, List.length_append, List.length_singleton] at hlen
      rw [List.length_append, List.length_singleton] at hc
      simp only [List.length_nil] at hlen
      omega
    · rw [if_neg hc]
      simp
  obtain ⟨m, hm, hmem, _, _⟩ := mostCommon1_spec _ hne
  refine ⟨m, _, predict_labelled e det now m hdet hm, rfl, rfl, ?_⟩
  exact hm

/-- C6 witness: starting from a fresh engine of capacity 3, a three-box
detection with label "132" is recorded and returned with success true. -/
theorem c6_labelled_witness :
    model2_predict (some [(⟨10, 0, 11, 1, 1, 3⟩ : Box), ⟨5, 0, 6, 1, 1, 1⟩,
      ⟨20, 0, 21, 1, 1, 2⟩]) = some "132" ∧
    1 ≤ (initEngine 3 false).output_queue_cap ∧
    (∃ m e', predict (initEngine 3 false) false
        (some [(⟨10, 0, 11, 1, 1, 3⟩ : Box), ⟨5, 0, 6, 1, 1, 1⟩,
          ⟨20, 0, 21, 1, 1, 2⟩]) = some (("132", m, true), e') ∧
      e'.most_frequent_label = m ∧
      e'.output_queue = stepQueue (initEngine 3 false).output_queue_cap
        (initEngine 3 false).output_queue "132" ∧
      mostCommon1 e'.output_queue = some m) :=
  ⟨by decide, by decide,
   c6_labelled_records_and_returns (initEngine 3 false) _ "132" (by decide) (by decide)⟩

/-- C7: after a reset, the majority query returns the empty string, and
recording any non-empty label L immediately yields majority L (the capacity
is positive per the configuration contract). -/
theorem c7_reset_then_query (e : Engine) (L : String) (hL : L ≠ "")
    (hcap : 1 ≤ e.output_queue_cap) :
    (get_most_frequent_label (clear_most_frequent_label e) none).1 = some "" ∧
    (get_most_frequent_label (clear_most_frequent_label e) (some L)).1 = some L := by
  constructor
  · rfl
  · rw [get_mfl_record_fst]
    show mostCommon1 (stepQueue e.output_queue_cap [] L) = some L
    unfold stepQueue
    rw [if_neg (by rw [List.nil_append, List.length_singleton]; omega)]
    rw [List.nil_append]
    rfl

/-- C7 witness: reset followed by a query gives "", and recording "123"
gives "123". -/
theorem c7_reset_then_query_witness :
    (("123" : String) ≠ "") ∧ 1 ≤ (initEngine 2 true).output_queue_cap ∧
    ((get_most_frequent_label (clear_most_frequent_label (initEngine 2 true)) none).1
        = some "" ∧
     (get_most_frequent_label (clear_most_frequent_label (initEngine 2 true))
        (some "123")).1 = some "123") :=
  ⟨by decide, by decide,
   c7_reset_then_query (initEngine 2 true) "123" (by decide) (by decide)⟩

/-- C8: the read-only majority query never fails and never mutates state:
it leaves the engine unchanged, returns "" on an empty history, and returns
some string on any non-empty history. -/
theorem c8_get_majority_total (e : Engine) :
    (get_most_frequent_label e none).2 = e ∧
    (e.output_queue = [] → (get_most_frequent_label e none).1 = some "") ∧
    (e.output_queue ≠ [] → ∃ s, (get_most_frequent_label e none).1 = some s) := by
  refine ⟨?_, ?_, ?_⟩
  · show (if e.output_queue.length = 0 then ((some "" : Option String), e)
      else (mostCommon1 e.output_queue, e)).2 = e
    split <;> rfl
  · intro hq
    show (if e.output_queue.length = 0 then ((some "" : Option String), e)
      else (mostCommon1 e.output_queue, e)).1 = some ""
    rw [if_pos (by rw [hq]; rfl)]
  · intro hq
    obtain ⟨m, hm, _, _, _⟩ := mostCommon1_spec _ hq
    refine ⟨m, ?_⟩
    show (if e.output_queue.length = 0 then ((some "" : Option String), e)
      else (mostCommon1 e.output_queue, e)).1 = some m
    rw [if_neg (fun h => hq (List.length_eq_zero.mp h))]
    exact hm

/-- C8 witness: on an empty history the query returns "", and on the
history ["a"] it returns a value. -/
theorem c8_get_majority_total_witness :
    (get_most_frequent_label (initEngine 2 false) none).1 = some "" ∧
    (∃ s, (get_most_frequent_label
        { output_queue := ["a"], output_queue_cap := 3,
          most_frequent_label := "a", flag_for_save_img := false, idx := 0 }
        none).1 = some s) :=
  ⟨(c8_get_majority_total (initEngine 2 false)).2.1 rfl,
   (c8_get_majority_total
      { output_queue := ["a"], output_queue_cap := 3,
        most_frequent_label := "a", flag_for_save_img := false, idx := 0 }).2.2
      (by decide)⟩

/-- C9: in every state reachable from construction by public operations
(`predict` in any decision state, `clear_most_frequent_label`, `close`), the
cached stabilized label equals the majority vote over the current history,
and it is the empty string exactly when the history is empty. -/
theorem c9_cached_label_invariant (cap : Nat) (flag : Bool) (e : Engine)
    (h : Relation.ReflTransGen Step (initEngine cap flag) e) : EngineInv e := by
  have hstrong : StrongInv e := by
    induction h with
    | refl => exact strongInv_init cap flag
    | tail hab hbc ih => exact strongInv_step ih hbc
  exact engineInv_of_strongInv hstrong

/-- C9 witness: the invariant holds at the freshly constructed engine. -/
theorem c9_cached_label_invariant_witness : EngineInv (initEngine 5 true) :=
  c9_cached_label_invariant 5 true (initEngine 5 true) Relation.ReflTransGen.refl

/-- C10: the empty-string branch of `make_label` is unreachable through the
public pipeline: with at least 3 boxes `make_label` is never empty, every
label the detector post-processing reports is non-empty, and a successful
`predict` (success flag true) always returns a non-empty raw label. -/
theorem c10_success_label_nonempty :
    (∀ boxes : List Box, 3 ≤ boxes.length → make_label boxes ≠ "") ∧
    (∀ (boxes : List Box) (l : String), svhn_predict boxes = some l → l ≠ "") ∧
    (∀ (e : Engine) (b : Bool) (det : Option (List Box)) (r s : String)
      (e' : Engine), predict e b det = some ((r, s, true), e') → r ≠ "") := by
  refine ⟨make_label_ne_empty, svhn_predict_ne_empty, ?_⟩
  intro e b det r s e' h
  cases b with
  | true =>
    rw [predict_noise] at h
    simp at h
  | false =>
    cases hdet : model2_predict det with
    | none =>
      rw [predict_nan e det hdet] at h
      simp at h
    | some now =>
      cases hm : mostCommon1 (stepQueue e.output_queue_cap e.output_queue now) with
      | none =>
        rw [predict_crash e det now hdet hm] at h
        cases h
      | some m =>
        rw [predict_labelled e det now m hdet hm] at h
        injection h with h1
        injection h1 with hpair he'
        have hr : now = r := congrArg (fun t => t.1) hpair
        rw [← hr]
        exact model2_predict_ne_empty det now hdet

/-- C10 witness: a concrete three-box detection produces the non-empty label
"132", and a successful predict on it returns a non-empty raw label. -/
theorem c10_success_label_nonempty_witness :
    make_label (sortByX1 [(⟨10, 0, 11, 1, 1, 3⟩ : Box), ⟨5, 0, 6, 1, 1, 1⟩,
      ⟨20, 0, 21, 1, 1, 2⟩]) ≠ "" ∧
    ("132" : String) ≠ "" :=
  ⟨c10_success_label_nonempty.1 _ (by decide),
   c10_success_label_nonempty.2.1 [(⟨10, 0, 11, 1, 1, 3⟩ : Box), ⟨5, 0, 6, 1, 1, 1⟩,
      ⟨20, 0, 21, 1, 1, 2⟩] "132" (by decide)⟩

end RoomNumber
